import Mathlib

/-!
Verification development for the `path-cp` interactive directory navigator.

The repository contains two Go variants of the same program:
* `src/main.go` — a self-contained bubbletea model (`model`, `initialModel`,
  `Update`) with an explicit cursor and synchronous directory reads, and
* `src/unnamed/part_000` — a variant built on the `bubbles/list` component
  (`model`, `createListItems`, `resolveNewPath`, `handleDirChange`,
  `getSelectedPath`, `getFormattedPath`, `run`) with asynchronous reads
  delivered as `dirChangeMsg`/`errMsg` messages.

Entries are modelled at the granularity the program observes: a name and a
directory flag (`fs.DirEntry.Name()` / `IsDir()`).  Go compares names with the
built-in `<` on strings, which is byte-wise comparison of their UTF-8 bytes;
byte-wise UTF-8 order coincides with code-point order, so names are modelled
as `String` and compared code point by code point (`strLtL` below).

The `path/filepath` functions used by the program (`Clean`, `Dir`, `Join`,
`Base`, `Rel`, `Abs`, `IsAbs`) are pure lexical string functions; they are
embedded below for the Unix build (separator `'/'`, no volume names),
following the Go standard library implementations.  Filesystem access
(`os.ReadDir`, `os.Stat`, `os.UserHomeDir`, `os.Getwd`) is modelled by
explicit oracles passed to the transition functions.
-/

/-! ### Byte-wise string comparison (Go `<` on strings) -/

/-- Go's `s < t` on strings: lexicographic comparison, here code point by
code point, which agrees with Go's byte-wise order on UTF-8 strings. -/
def strLtL : List Char → List Char → Bool
  | [], [] => false
  | [], _ :: _ => true
  | _ :: _, [] => false
  | a :: as, b :: bs => if a < b then true else if b < a then false else strLtL as bs

/-- Non-strict version of `strLtL`. -/
def strLeL : List Char → List Char → Bool
  | [], _ => true
  | _ :: _, [] => false
  | a :: as, b :: bs => if a < b then true else if b < a then false else strLeL as bs

/-! ### Unix `path/filepath` embedding -/

/-- Split a path on `'/'`; mirrors Go's view of a path as slash-separated
elements (`strings.Split(p, "/")`).  Never returns `[]`. -/
def splitSlash : List Char → List (List Char)
  | [] => [[]]
  | c :: rest =>
    if c = '/' then [] :: splitSlash rest
    else
      match splitSlash rest with
      | g :: gs => (c :: g) :: gs
      | [] => [[c]]

/-- Join path elements with `'/'` (inverse of `splitSlash`). -/
def joinSlash : List (List Char) → List Char
  | [] => []
  | [c] => c
  | c :: cs => c ++ '/' :: joinSlash cs

/-- One step of `filepath.Clean`'s element processing: skip empty and `.`
elements, let `..` erase the previous element (or accumulate at the start of
a relative path, or vanish at the root of a rooted path), push anything else.
The accumulator holds the output elements in reverse order. -/
def cleanStep (rooted : Bool) (acc : List (List Char)) (c : List Char) : List (List Char) :=
  if c = [] ∨ c = ['.'] then acc
  else if c = ['.', '.'] then
    match acc with
    | [] => if rooted then [] else [['.', '.']]
    | a :: rest => if a = ['.', '.'] then ['.', '.'] :: a :: rest else rest
  else c :: acc

/-- `filepath.Clean` for Unix paths: shortest lexically equivalent path. -/
def goCleanL (p : List Char) : List Char :=
  if p = [] then ['.']
  else
    let rooted := p.head? = some '/'
    let comps := ((splitSlash p).foldl (cleanStep rooted) []).reverse
    if rooted then '/' :: joinSlash comps
    else if comps = [] then ['.'] else joinSlash comps

/-- `filepath.Dir` for Unix: everything up to and including the final
separator, cleaned; `.` when the path contains no separator. -/
def filepathDirL (p : List Char) : List Char :=
  goCleanL (p.reverse.dropWhile (fun c => !(c == '/'))).reverse

/-- Two-argument `filepath.Join` for Unix: Go joins the non-empty arguments
with the separator and cleans the result. -/
def filepathJoinL (a b : List Char) : List Char :=
  if a ≠ [] then goCleanL (a ++ '/' :: b)
  else if b ≠ [] then goCleanL b
  else []

/-- `filepath.Base` for Unix: strip trailing separators, then keep everything
after the final separator; `"."` for the empty path, `"/"` if nothing is left. -/
def filepathBaseL (p : List Char) : List Char :=
  if p = [] then ['.']
  else
    let q := (p.reverse.dropWhile (fun c => c == '/')).reverse
    let r := (q.reverse.takeWhile (fun c => !(c == '/'))).reverse
    if r = [] then ['/'] else r

/-- `filepath.IsAbs` for Unix. -/
def isAbsL (p : List Char) : Bool := p.head? = some '/'

/-- Drop the longest common prefix of two element lists (the first loop of
`filepath.Rel`, which advances both paths past their equal leading elements). -/
def dropCommon : List (List Char) → List (List Char) → List (List Char) × List (List Char)
  | a :: as, b :: bs => if a = b then dropCommon as bs else (a :: as, b :: bs)
  | as, bs => (as, bs)

/-- Element sequence of a cleaned base path as `Rel`'s scan walks it: the
elements after the root for a rooted path, none for `.` (Go's `base = ""`
conversion), the split elements otherwise. -/
def relBaseComps (base : List Char) : List (List Char) :=
  match base with
  | '/' :: r => if r = [] then [] else splitSlash r
  | _ => if base = ['.'] then [] else splitSlash base

/-- Element sequence of a cleaned target path as `Rel`'s scan walks it; the
target gets no `.` conversion. -/
def relTargComps (targ : List Char) : List (List Char) :=
  match targ with
  | '/' :: r => if r = [] then [] else splitSlash r
  | _ => splitSlash targ

/-- `filepath.Rel` for Unix.  Both paths are cleaned; equal paths yield `.`;
mixed rooted/relative paths fail; otherwise the shared leading elements are
dropped, a remaining base whose first element is `..` fails, and the result
walks up once per remaining base element and then down the remaining target
elements.  Go converts a base of `.` to no elements; the target is not
converted. -/
def goRelL (basepath targpath : List Char) : Option (List Char) :=
  let base := goCleanL basepath
  let targ := goCleanL targpath
  if base = targ then some ['.']
  else if (isAbsL base) ≠ (isAbsL targ) then none
  else
    let p := dropCommon (relBaseComps base) (relTargComps targ)
    if p.1.head? = some ['.', '.'] then none
    else some (joinSlash (List.replicate p.1.length ['.', '.'] ++ p.2))

/-! String-level wrappers. -/

def goClean (s : String) : String := ⟨goCleanL s.data⟩

def filepathDir (s : String) : String := ⟨filepathDirL s.data⟩

def filepathJoin (a b : String) : String := ⟨filepathJoinL a.data b.data⟩

def filepathBase (s : String) : String := ⟨filepathBaseL s.data⟩

def isAbsPath (s : String) : Bool := isAbsL s.data

def goRel (basepath targpath : String) : Option String :=
  (goRelL basepath.data targpath.data).map fun l => ⟨l⟩

/-- Message of the error built by Go's `filepath.Rel` on failure. -/
def relErrMsg (basepath targpath : String) : String :=
  "Rel: can't make " ++ targpath ++ " relative to " ++ basepath

/-- `filepath.Abs`: absolute paths are cleaned; relative paths are joined to
the working directory, whose lookup (`os.Getwd`) is an oracle that may fail. -/
def goAbs (getwd : Option String) (p : String) : Except String String :=
  if isAbsPath p then .ok (goClean p)
  else
    match getwd with
    | none => .error "getwd failed"
    | some wd => .ok (filepathJoin wd p)

/-! ### Entry model and listing builder -/

/-- One directory entry as the program observes it: `fs.DirEntry.Name()` and
`fs.DirEntry.IsDir()`.  The synthetic parent marker (`parentDirEntry` in both
variants) has name `".."` and is a directory. -/
structure Entry where
  name : String
  isDir : Bool
deriving DecidableEq

/-- The synthetic `parentDirEntry{}`: `Name() == ".."`, `IsDir() == true`. -/
def parentMark : Entry := ⟨"..", true⟩

/-- Ordering used by `sortByName` (`entries[i].Name() < entries[j].Name()`),
as the non-strict relation the sorted output satisfies. -/
def entryLe (a b : Entry) : Prop := strLeL a.name.data b.name.data = true

instance : DecidableRel entryLe := fun a b =>
  inferInstanceAs (Decidable (strLeL a.name.data b.name.data = true))

/-- `partitionEntries` from `part_000` (and the equivalent loop in
`main.go`): directories in input order, then non-directories in input order. -/
def partitionEntries (es : List Entry) : List Entry × List Entry :=
  (es.filter fun e => e.isDir, es.filter fun e => !e.isDir)

/-- `sortByName`: `sort.Slice` by `Name() < Name()`.  At this entry
granularity two entries with equal names inside one partition are identical
values, so the sorted permutation is unique as a list and any algorithm
meeting `sort.Slice`'s contract produces it; insertion sort realizes it. -/
def sortByName (es : List Entry) : List Entry :=
  List.insertionSort entryLe es

/-- `createListItems` from `part_000` (the same listing construction appears
inline in `main.go`'s `initialModel` and `Update`): parent marker first, then
the name-sorted directories, then the name-sorted files.  The wrapping of
entries into `list.Item`s is the identity at this granularity. -/
def createListItems (es : List Entry) : List Entry :=
  let p := partitionEntries es
  parentMark :: (sortByName p.1 ++ sortByName p.2)

/-- `resolveNewPath` from `part_000` (the same conditional appears inline in
`main.go`'s enter handler). -/
def resolveNewPath (currentPath dirname : String) : String :=
  if dirname = ".." then filepathDir currentPath
  else filepathJoin currentPath dirname

/-! ### `src/main.go`: the self-contained variant -/

/-- Result of `os.ReadDir`, as an oracle: the raw entries of a path, or a
failure whose description is the error's rendering. -/
def FS : Type := String → Except String (List Entry)

/-- `mode` in `main.go`: `ModeSelect` / `ModeSearch`. -/
inductive MMode where
  | select
  | search
deriving DecidableEq

/-- The `model` struct of `main.go`. -/
structure MModel where
  mode : MMode
  cursor : Nat
  currentPath : String
  entries : List Entry
  err : Option String
deriving DecidableEq

/-- Commands returned by `main.go`'s `Update`: `nil` or `tea.Quit`. -/
inductive MCmd where
  | none
  | quit
deriving DecidableEq

/-- `Update` of `main.go` on a key message, with `os.ReadDir` as the oracle
`fs`.  The `enter`/`l`/`right` and `h`/`left` branches build the sorted
listing exactly as `createListItems` does, so that definition is reused. -/
def mUpdate (fs : FS) (m : MModel) (key : String) : MModel × MCmd :=
  match m.mode with
  | .select =>
    if key = "/" then ({ m with mode := .search }, .none)
    else if key = "ctrl+c" ∨ key = "q" then (m, .quit)
    else if key = "up" ∨ key = "k" then
      (if m.cursor > 0 then { m with cursor := m.cursor - 1 } else m, .none)
    else if key = "down" ∨ key = "j" then
      (if m.cursor < m.entries.length - 1 then { m with cursor := m.cursor + 1 } else m, .none)
    else if key = "enter" ∨ key = "l" ∨ key = "right" then
      match m.entries[m.cursor]? with
      | Option.none => (m, .none)
      | some entry =>
        if entry.isDir then
          let newPath := resolveNewPath m.currentPath entry.name
          match fs newPath with
          | .error e => ({ m with err := some e }, .none)
          | .ok entries =>
            ({ m with currentPath := newPath, entries := createListItems entries,
                      cursor := 0, err := Option.none }, .none)
        else (m, .none)
    else if key = "h" ∨ key = "left" then
      let newPath := filepathDir m.currentPath
      match fs newPath with
      | .error e => ({ m with err := some e }, .none)
      | .ok entries =>
        ({ m with currentPath := newPath, entries := createListItems entries,
                  cursor := 0, err := Option.none }, .none)
    else (m, .none)
  | .search =>
    if key = "esc" then ({ m with mode := .select }, .none) else (m, .none)

/-! ### `src/unnamed/part_000`: the bubbles/list variant -/

/-- The slice of `bubbles/list.Model` state this program observes: the item
list, the selection index, and the applied name filter.  `SelectedItem()`
returns the visible item at the index, or nothing when the index is outside
the visible sequence; `ResetSelected()` sets the index to 0; `ResetFilter()`
clears the filter; `SetItems` replaces the items.  The component's internal
key handling (cursor movement, filter-text editing) is an external
collaborator and is outside this embedding. -/
structure BbList where
  items : List Entry
  index : Nat
  filterText : Option String
deriving DecidableEq

/-- Leading-match test used by substring containment. -/
def startsWithL : List Char → List Char → Bool
  | [], _ => true
  | _ :: _, [] => false
  | a :: as, b :: bs => a = b && startsWithL as bs

/-- Substring containment for the applied name filter. -/
def containsL (needle : List Char) : List Char → Bool
  | [] => needle.isEmpty
  | c :: rest => startsWithL needle (c :: rest) || containsL needle rest

/-- Visible sequence of the list: all items, or the name-matched subset when
a filter is applied. -/
def visibleItems (l : BbList) : List Entry :=
  match l.filterText with
  | none => l.items
  | some t => l.items.filter fun e => containsL t.data e.name.data

/-- `list.Model.SelectedItem()`: the visible item at the selection index, or
nothing when the index is out of range (in particular whenever the visible
sequence is empty). -/
def selectedItem (l : BbList) : Option Entry :=
  (visibleItems l)[l.index]?

/-- The `model` struct of `part_000`. -/
structure PModel where
  initialPath : String
  currentPath : String
  list : BbList
  err : Option String
  copyPath : Bool
  copyFormat : String
deriving DecidableEq

/-- Messages handled by `part_000`'s `Update`: `dirChangeMsg`, `errMsg`, and
`tea.KeyMsg` (by its `String()` rendering). -/
inductive PMsg where
  | dirChange (path : String) (entries : List Entry)
  | errM (e : String)
  | key (k : String)
deriving DecidableEq

/-- Commands issued by `part_000`'s `Update`: `nil`, `tea.Quit`, or the
closure produced by `navigateTo`, which asynchronously reads the recorded
path. -/
inductive PCmd where
  | none
  | quit
  | navigate (path : String)
deriving DecidableEq

/-- Running a `navigateTo` command against the filesystem oracle: the message
its closure returns (`dirChangeMsg` on success, `errMsg` on failure). -/
def runCmd (fs : FS) : PCmd → Option PMsg
  | .navigate p =>
    some (match fs p with
          | .ok es => .dirChange p es
          | .error e => .errM e)
  | _ => Option.none

/-- `handleDirChange` from `part_000`: store the new path, rebuild the items
via `createListItems`, reset the selection and the filter.  The source does
not touch `m.err` here, so neither does the model. -/
def handleDirChange (m : PModel) (path : String) (entries : List Entry) : PModel :=
  { m with currentPath := path,
           list := { items := createListItems entries, index := 0, filterText := Option.none } }

/-- `handleEnterDirectory` from `part_000`. -/
def handleEnterDirectory (m : PModel) : PModel × PCmd :=
  match selectedItem m.list with
  | Option.none => (m, .none)
  | some entry =>
    if ¬ entry.isDir then (m, .none)
    else (m, .navigate (resolveNewPath m.currentPath entry.name))

/-- `handleKeyPress` from `part_000`, for states in which the list is not in
the middle of interactive filter entry (`FilterState() != Filtering`).  Keys
not handled here are consumed by the list component (external collaborator)
without touching this state. -/
def pHandleKey (m : PModel) (k : String) : PModel × PCmd :=
  if k = "ctrl+c" ∨ k = "q" then ({ m with copyPath := false }, .quit)
  else if k = "f" then ({ m with copyPath := true, copyFormat := "f" }, .quit)
  else if k = "r" then ({ m with copyPath := true, copyFormat := "r" }, .quit)
  else if k = "a" then ({ m with copyPath := true, copyFormat := "a" }, .quit)
  else if k = "d" then ({ m with copyPath := true, copyFormat := "d" }, .quit)
  else if k = "p" then ({ m with copyPath := true, copyFormat := "p" }, .quit)
  else if k = "enter" ∨ k = " " ∨ k = "l" ∨ k = "right" then handleEnterDirectory m
  else if k = "backspace" ∨ k = "h" ∨ k = "left" then
    (m, .navigate (resolveNewPath m.currentPath ".."))
  else (m, .none)

/-- `Update` from `part_000` on the three message kinds the state machine
reacts to (window resizing only forwards sizes to the list component). -/
def pUpdate (m : PModel) : PMsg → PModel × PCmd
  | .dirChange p es => (handleDirChange m p es, .none)
  | .errM e => ({ m with err := some e }, .none)
  | .key k => pHandleKey m k

/-- `getSelectedPath` from `part_000`. -/
def getSelectedPath (m : PModel) : String :=
  match selectedItem m.list with
  | Option.none => m.currentPath
  | some entry =>
    if entry.name = ".." then m.currentPath
    else filepathJoin m.currentPath entry.name

/-- The switch body of `getFormattedPath` from `part_000`, as a function of
the already-resolved selected path.  `getwd` is the `os.Getwd` oracle used by
`filepath.Abs`, `statIsDir` the `os.Stat` oracle (`some b` means the path
exists and `b` tells whether it is a directory, `none` means the lookup
failed), `home` the `os.UserHomeDir` oracle. -/
def formatPath (getwd : Option String) (statIsDir : String → Option Bool)
    (home : Option String) (initialPath selectedPath code : String) :
    Except String String :=
  if code = "f" then .ok (filepathBase selectedPath)
  else if code = "r" then
    match goRel initialPath selectedPath with
    | Option.none => .error ("failed to get relative path: " ++ relErrMsg initialPath selectedPath)
    | some r => .ok r
  else if code = "a" then
    match goAbs getwd selectedPath with
    | .error e => .error ("failed to get absolute path: " ++ e)
    | .ok a => .ok a
  else if code = "d" then
    match goAbs getwd selectedPath with
    | .error e => .error ("failed to get absolute path: " ++ e)
    | .ok absPath =>
      if statIsDir absPath = some false then .ok (filepathDir absPath)
      else .ok absPath
  else if code = "p" then
    match goAbs getwd selectedPath with
    | .error e => .error ("failed to get absolute path: " ++ e)
    | .ok absPath =>
      let dirPath := if statIsDir absPath = some false then filepathDir absPath else absPath
      match home with
      | some homeDir =>
        (match goRel homeDir dirPath with
         | some relPath =>
           if ¬ isAbsPath relPath ∧ relPath.data ≠ [] ∧ relPath.data.head? ≠ some '.' then
             .ok (filepathJoin "$HOME" relPath)
           else .ok dirPath
         | Option.none => .ok dirPath)
      | Option.none => .ok dirPath
  else .ok selectedPath

/-- `getFormattedPath` from `part_000`. -/
def getFormattedPath (getwd : Option String) (statIsDir : String → Option Bool)
    (home : Option String) (m : PModel) : Except String String :=
  formatPath getwd statIsDir home m.initialPath (getSelectedPath m) m.copyFormat

/-- The export step at the end of `run` in `part_000`: nothing when no copy
was requested; otherwise either the formatted path or the wrapped formatting
failure, which aborts the export. -/
def runExport (getwd : Option String) (statIsDir : String → Option Bool)
    (home : Option String) (m : PModel) : Option (Except String String) :=
  if m.copyPath then
    some (match getFormattedPath getwd statIsDir home m with
          | .error e => .error ("failed to format path: " ++ e)
          | .ok p => .ok p)
  else Option.none

/-! ### Order properties of byte-wise comparison -/

theorem strLeL_total : ∀ x y, strLeL x y = true ∨ strLeL y x = true
  | [], _ => Or.inl rfl
  | _ :: _, [] => Or.inr rfl
  | a :: as, b :: bs => by
    by_cases hab : a < b
    · left; simp [strLeL, hab]
    · by_cases hba : b < a
      · right; simp [strLeL, hba]
      · rcases strLeL_total as bs with h | h
        · left; simp [strLeL, hab, hba, h]
        · right; simp [strLeL, hab, hba, h]

theorem strLeL_trans : ∀ x y z, strLeL x y = true → strLeL y z = true → strLeL x z = true
  | [], _, _, _, _ => rfl
  | _ :: _, [], _, h1, _ => by simp [strLeL] at h1
  | _ :: _, _ :: _, [], _, h2 => by simp [strLeL] at h2
  | a :: as, b :: bs, c :: cs, h1, h2 => by
    simp only [strLeL] at h1 h2 ⊢
    by_cases hab : a < b
    · by_cases hbc : b < c
      · rw [if_pos (lt_trans hab hbc)]
      · by_cases hcb : c < b
        · rw [if_neg hbc, if_pos hcb] at h2; exact absurd h2 (by simp)
        · have hbceq : b = c := le_antisymm (not_lt.mp hcb) (not_lt.mp hbc)
          have hac : a < c := by rw [← hbceq]; exact hab
          rw [if_pos hac]
    · by_cases hba : b < a
      · rw [if_neg hab, if_pos hba] at h1; exact absurd h1 (by simp)
      · have habeq : a = b := le_antisymm (not_lt.mp hba) (not_lt.mp hab)
        by_cases hbc : b < c
        · have hac : a < c := by rw [habeq]; exact hbc
          rw [if_pos hac]
        · by_cases hcb : c < b
          · rw [if_neg hbc, if_pos hcb] at h2; exact absurd h2 (by simp)
          · rw [if_neg hab, if_neg hba] at h1
            rw [if_neg hbc, if_neg hcb] at h2
            have hac : ¬ a < c := by rw [habeq]; exact hbc
            have hca : ¬ c < a := by rw [habeq]; exact hcb
            rw [if_neg hac, if_neg hca]
            exact strLeL_trans as bs cs h1 h2

instance : IsTotal Entry entryLe :=
  ⟨fun a b => strLeL_total a.name.data b.name.data⟩

instance : IsTrans Entry entryLe :=
  ⟨fun a b c => strLeL_trans a.name.data b.name.data c.name.data⟩

/-! ### Listing builder lemmas -/

theorem sortByName_perm (es : List Entry) : List.Perm (sortByName es) es :=
  List.perm_insertionSort entryLe es

theorem sortByName_sorted (es : List Entry) : List.Pairwise entryLe (sortByName es) :=
  List.sorted_insertionSort entryLe es

theorem mem_sortByName {x : Entry} {es : List Entry} (h : x ∈ sortByName es) : x ∈ es :=
  (List.mem_insertionSort entryLe).mp h

theorem createListItems_tail_perm (es : List Entry) :
    List.Perm (createListItems es).tail es := by
  show List.Perm (sortByName (es.filter fun e => e.isDir) ++
                  sortByName (es.filter fun e => !e.isDir)) es
  exact ((sortByName_perm _).append (sortByName_perm _)).trans (List.filter_append_perm _ es)

/-- A filter whose predicate pins down a single entry value yields equal
results on permuted lists. -/
theorem filter_eq_of_perm_of_const {p : Entry → Bool} {a : Entry}
    (hconst : ∀ x, p x = true → x = a) {l₁ l₂ : List Entry} (h : List.Perm l₁ l₂) :
    l₁.filter p = l₂.filter p := by
  have hrep : ∀ l : List Entry, l.filter p = List.replicate (l.countP p) a := by
    intro l
    rw [List.countP_eq_length_filter]
    exact List.eq_replicate_iff.mpr
      ⟨rfl, fun b hb => hconst b (List.of_mem_filter hb)⟩
  rw [hrep l₁, hrep l₂, h.countP_eq]

/-- C1: For every raw entry set, the built listing's first element is the
synthetic parent marker, every directory entry precedes every file entry in
the remainder, and within the directory group and within the file group
entries appear in ascending byte-wise name order. -/
theorem C1_listing_order (es : List Entry) :
    (createListItems es).head? = some parentMark ∧
    List.Pairwise
      (fun a b => (b.isDir = true → a.isDir = true) ∧
                  (a.isDir = b.isDir → strLeL a.name.data b.name.data = true))
      (createListItems es).tail := by
  refine ⟨rfl, ?_⟩
  show List.Pairwise _ (sortByName (es.filter fun e => e.isDir) ++
                        sortByName (es.filter fun e => !e.isDir))
  have hdir : ∀ x ∈ sortByName (es.filter fun e => e.isDir), x.isDir = true := by
    intro x hx
    simpa using (List.mem_filter.mp (mem_sortByName hx)).2
  have hfile : ∀ x ∈ sortByName (es.filter fun e => !e.isDir), x.isDir = false := by
    intro x hx
    simpa using (List.mem_filter.mp (mem_sortByName hx)).2
  rw [List.pairwise_append]
  refine ⟨?_, ?_, ?_⟩
  · exact (sortByName_sorted _).imp_of_mem fun {a b} ha _ hle =>
      ⟨fun _ => hdir a ha, fun _ => hle⟩
  · exact (sortByName_sorted _).imp_of_mem fun {a b} _ hb hle =>
      ⟨fun hbd => absurd hbd (by simp [hfile b hb]), fun _ => hle⟩
  · intro a ha b hb
    refine ⟨fun _ => hdir a ha, fun hab => ?_⟩
    rw [hdir a ha, hfile b hb] at hab
    exact absurd hab (by simp)

/-- C6: For every raw entry set containing two entries with identical names,
the listing builder keeps both (the remainder of the output is a permutation
of the input, so nothing is deduplicated and nothing is lost) and the
equal-named entries within the directory group, and within the file group,
appear exactly as in the input: the filtered subsequences coincide as lists. -/
theorem C6_duplicates_kept (es : List Entry) (n : String) :
    List.Perm (createListItems es).tail es ∧
    (createListItems es).tail.filter (fun e => e.name == n && e.isDir) =
      es.filter (fun e => e.name == n && e.isDir) ∧
    (createListItems es).tail.filter (fun e => e.name == n && !e.isDir) =
      es.filter (fun e => e.name == n && !e.isDir) := by
  refine ⟨createListItems_tail_perm es, ?_, ?_⟩
  · exact filter_eq_of_perm_of_const (a := ⟨n, true⟩)
      (fun x hx => by
        rcases Bool.and_eq_true .. |>.mp hx with ⟨h1, h2⟩
        cases x
        simp_all)
      (createListItems_tail_perm es)
  · exact filter_eq_of_perm_of_const (a := ⟨n, false⟩)
      (fun x hx => by
        rcases Bool.and_eq_true .. |>.mp hx with ⟨h1, h2⟩
        cases x
        simp_all)
      (createListItems_tail_perm es)

/-! ### Reduction lemmas for `main.go`'s `Update` on concrete keys -/

theorem mUpdate_key_up (fs : FS) (c : Nat) (p : String) (es : List Entry) (er : Option String) :
    mUpdate fs ⟨.select, c, p, es, er⟩ "up" =
      (if c > 0 then ⟨.select, c - 1, p, es, er⟩ else ⟨.select, c, p, es, er⟩, .none) := rfl

theorem mUpdate_key_k (fs : FS) (c : Nat) (p : String) (es : List Entry) (er : Option String) :
    mUpdate fs ⟨.select, c, p, es, er⟩ "k" =
      (if c > 0 then ⟨.select, c - 1, p, es, er⟩ else ⟨.select, c, p, es, er⟩, .none) := rfl

theorem mUpdate_key_down (fs : FS) (c : Nat) (p : String) (es : List Entry) (er : Option String) :
    mUpdate fs ⟨.select, c, p, es, er⟩ "down" =
      (if c < es.length - 1 then ⟨.select, c + 1, p, es, er⟩
       else ⟨.select, c, p, es, er⟩, .none) := rfl

theorem mUpdate_key_j (fs : FS) (c : Nat) (p : String) (es : List Entry) (er : Option String) :
    mUpdate fs ⟨.select, c, p, es, er⟩ "j" =
      (if c < es.length - 1 then ⟨.select, c + 1, p, es, er⟩
       else ⟨.select, c, p, es, er⟩, .none) := rfl

theorem mUpdate_search_other (fs : FS) (c : Nat) (p : String) (es : List Entry)
    (er : Option String) (k : String) (hk : ¬ k = "esc") :
    mUpdate fs ⟨.search, c, p, es, er⟩ k = (⟨.search, c, p, es, er⟩, .none) := by
  show (if k = "esc" then _ else _) = _
  rw [if_neg hk]

/-- A single cursor-movement key changes at most the cursor, keeps it in
range, issues no command, and consults nothing outside the model (no I/O). -/
theorem mUpdate_cursorKey (fs : FS) (m : MModel) (k : String)
    (hk : k = "up" ∨ k = "k" ∨ k = "down" ∨ k = "j") :
    (mUpdate fs m k).1.mode = m.mode ∧
    (mUpdate fs m k).1.currentPath = m.currentPath ∧
    (mUpdate fs m k).1.entries = m.entries ∧
    (mUpdate fs m k).1.err = m.err ∧
    (m.cursor < m.entries.length → (mUpdate fs m k).1.cursor < m.entries.length) ∧
    (mUpdate fs m k).2 = MCmd.none ∧
    ∀ fs' : FS, mUpdate fs' m k = mUpdate fs m k := by
  rcases m with ⟨mo, c, p, es, er⟩
  cases mo
  case search =>
    have h1 : ∀ g : FS, mUpdate g ⟨.search, c, p, es, er⟩ k = (⟨.search, c, p, es, er⟩, .none) := by
      intro g
      refine mUpdate_search_other g c p es er k ?_
      rcases hk with rfl | rfl | rfl | rfl <;> decide
    rw [h1 fs]
    exact ⟨rfl, rfl, rfl, rfl, fun h => h, rfl, fun fs' => h1 fs'⟩
  case select =>
    rcases hk with rfl | rfl | rfl | rfl
    · rw [mUpdate_key_up]
      by_cases h : c > 0
      · rw [if_pos h]
        exact ⟨rfl, rfl, rfl, rfl,
          fun hlt => Nat.lt_of_le_of_lt (Nat.sub_le c 1) hlt, rfl,
          fun fs' => by rw [mUpdate_key_up, if_pos h]⟩
      · rw [if_neg h]
        exact ⟨rfl, rfl, rfl, rfl, fun hlt => hlt, rfl,
          fun fs' => by rw [mUpdate_key_up, if_neg h]⟩
    · rw [mUpdate_key_k]
      by_cases h : c > 0
      · rw [if_pos h]
        exact ⟨rfl, rfl, rfl, rfl,
          fun hlt => Nat.lt_of_le_of_lt (Nat.sub_le c 1) hlt, rfl,
          fun fs' => by rw [mUpdate_key_k, if_pos h]⟩
      · rw [if_neg h]
        exact ⟨rfl, rfl, rfl, rfl, fun hlt => hlt, rfl,
          fun fs' => by rw [mUpdate_key_k, if_neg h]⟩
    · rw [mUpdate_key_down]
      by_cases h : c < es.length - 1
      · rw [if_pos h]
        exact ⟨rfl, rfl, rfl, rfl, fun _ => show c + 1 < es.length by omega, rfl,
          fun fs' => by rw [mUpdate_key_down, if_pos h]⟩
      · rw [if_neg h]
        exact ⟨rfl, rfl, rfl, rfl, fun hlt => hlt, rfl,
          fun fs' => by rw [mUpdate_key_down, if_neg h]⟩
    · rw [mUpdate_key_j]
      by_cases h : c < es.length - 1
      · rw [if_pos h]
        exact ⟨rfl, rfl, rfl, rfl, fun _ => show c + 1 < es.length by omega, rfl,
          fun fs' => by rw [mUpdate_key_j, if_pos h]⟩
      · rw [if_neg h]
        exact ⟨rfl, rfl, rfl, rfl, fun hlt => hlt, rfl,
          fun fs' => by rw [mUpdate_key_j, if_neg h]⟩

/-- Folding any sequence of cursor-movement keys keeps the cursor in range,
never touches path, listing or error, and never consults the filesystem. -/
theorem foldl_cursorKeys (fs : FS) :
    ∀ (ks : List String) (m : MModel),
      (∀ k ∈ ks, k = "up" ∨ k = "k" ∨ k = "down" ∨ k = "j") →
      m.cursor < m.entries.length →
      (ks.foldl (fun s k => (mUpdate fs s k).1) m).cursor <
          (ks.foldl (fun s k => (mUpdate fs s k).1) m).entries.length ∧
      (ks.foldl (fun s k => (mUpdate fs s k).1) m).entries = m.entries ∧
      (ks.foldl (fun s k => (mUpdate fs s k).1) m).currentPath = m.currentPath ∧
      (ks.foldl (fun s k => (mUpdate fs s k).1) m).err = m.err ∧
      ∀ fs' : FS, ks.foldl (fun s k => (mUpdate fs' s k).1) m =
          ks.foldl (fun s k => (mUpdate fs s k).1) m
  | [], _, _, hlt => ⟨hlt, rfl, rfl, rfl, fun _ => rfl⟩
  | k :: ks, m, hks, hlt => by
    have hk := hks k (List.mem_cons_self k ks)
    obtain ⟨hmode, hpath, hent, herr, hcur, _, hfs⟩ := mUpdate_cursorKey fs m k hk
    have hlt' : (mUpdate fs m k).1.cursor < (mUpdate fs m k).1.entries.length := by
      rw [hent]; exact hcur hlt
    obtain ⟨r1, r2, r3, r4, r5⟩ :=
      foldl_cursorKeys fs ks ((mUpdate fs m k).1)
        (fun k' hk' => hks k' (List.mem_cons_of_mem k hk')) hlt'
    rw [List.foldl_cons]
    refine ⟨r1, r2.trans hent, r3.trans hpath, r4.trans herr, fun fs' => ?_⟩
    rw [List.foldl_cons, hfs fs', r5 fs']

/-- C9: For every non-empty visible sequence and every finite sequence of
cursor-up and cursor-down events, the cursor index after processing the
sequence lies within range, the moves touch nothing but the cursor (no I/O:
the result does not depend on the filesystem oracle), and moves at the
boundaries are no-ops. -/
theorem C9_cursor_clamp :
    (∀ (fs : FS) (ks : List String) (m : MModel),
        (∀ k ∈ ks, k = "up" ∨ k = "k" ∨ k = "down" ∨ k = "j") →
        m.cursor < m.entries.length →
        (ks.foldl (fun s k => (mUpdate fs s k).1) m).cursor <
            (ks.foldl (fun s k => (mUpdate fs s k).1) m).entries.length ∧
        (ks.foldl (fun s k => (mUpdate fs s k).1) m).entries = m.entries ∧
        (ks.foldl (fun s k => (mUpdate fs s k).1) m).currentPath = m.currentPath ∧
        (ks.foldl (fun s k => (mUpdate fs s k).1) m).err = m.err ∧
        ∀ fs' : FS, ks.foldl (fun s k => (mUpdate fs' s k).1) m =
            ks.foldl (fun s k => (mUpdate fs s k).1) m) ∧
    (∀ (fs : FS) (m : MModel), m.mode = MMode.select → m.cursor = 0 →
        mUpdate fs m "up" = (m, MCmd.none) ∧ mUpdate fs m "k" = (m, MCmd.none)) ∧
    (∀ (fs : FS) (m : MModel), m.mode = MMode.select →
        m.cursor = m.entries.length - 1 →
        mUpdate fs m "down" = (m, MCmd.none) ∧ mUpdate fs m "j" = (m, MCmd.none)) := by
  refine ⟨fun fs ks m => foldl_cursorKeys fs ks m, ?_, ?_⟩
  · intro fs m hmode hc
    rcases m with ⟨mo, c, p, es, er⟩
    have hmo : mo = MMode.select := hmode
    subst hmo
    have hc' : c = 0 := hc
    subst hc'
    constructor
    · rw [mUpdate_key_up, if_neg (by decide : ¬ (0 : Nat) > 0)]
    · rw [mUpdate_key_k, if_neg (by decide : ¬ (0 : Nat) > 0)]
  · intro fs m hmode hc
    rcases m with ⟨mo, c, p, es, er⟩
    have hmo : mo = MMode.select := hmode
    subst hmo
    have hc' : c = es.length - 1 := hc
    subst hc'
    constructor
    · rw [mUpdate_key_down, if_neg (lt_irrefl (es.length - 1))]
    · rw [mUpdate_key_j, if_neg (lt_irrefl (es.length - 1))]

/-- Witness for C9 at a concrete model, key sequence and filesystem. -/
theorem C9_cursor_clamp_witness :
    ((["down", "j", "up", "up", "k"].foldl
        (fun s k => (mUpdate (fun _ => Except.error "io") s k).1)
        ⟨MMode.select, 0, "/a", [parentMark, ⟨"b", true⟩, ⟨"c.txt", false⟩], Option.none⟩).cursor <
      (["down", "j", "up", "up", "k"].foldl
        (fun s k => (mUpdate (fun _ => Except.error "io") s k).1)
        ⟨MMode.select, 0, "/a", [parentMark, ⟨"b", true⟩, ⟨"c.txt", false⟩], Option.none⟩).entries.length) ∧
    mUpdate (fun _ => Except.error "io")
        ⟨MMode.select, 0, "/a", [parentMark, ⟨"b", true⟩, ⟨"c.txt", false⟩], Option.none⟩ "up" =
      (⟨MMode.select, 0, "/a", [parentMark, ⟨"b", true⟩, ⟨"c.txt", false⟩], Option.none⟩, MCmd.none) := by
  constructor
  · exact (C9_cursor_clamp.1 (fun _ => Except.error "io") ["down", "j", "up", "up", "k"]
      ⟨MMode.select, 0, "/a", [parentMark, ⟨"b", true⟩, ⟨"c.txt", false⟩], Option.none⟩
      (by intro k hk; fin_cases hk <;> simp) (by decide)).1
  · exact (C9_cursor_clamp.2.1 (fun _ => Except.error "io")
      ⟨MMode.select, 0, "/a", [parentMark, ⟨"b", true⟩, ⟨"c.txt", false⟩], Option.none⟩
      rfl rfl).1

/-- Reduction of `main.go`'s `Update` on the three descend keys. -/
theorem mUpdate_key_descend (fs : FS) (c : Nat) (p : String) (es : List Entry)
    (er : Option String) (k : String) (hk : k = "enter" ∨ k = "l" ∨ k = "right") :
    mUpdate fs ⟨.select, c, p, es, er⟩ k =
      (match es[c]? with
       | Option.none => ((⟨.select, c, p, es, er⟩ : MModel), MCmd.none)
       | some entry =>
         if entry.isDir then
           match fs (resolveNewPath p entry.name) with
           | .error e => ((⟨.select, c, p, es, some e⟩ : MModel), MCmd.none)
           | .ok ents =>
             ((⟨.select, 0, resolveNewPath p entry.name, createListItems ents,
                Option.none⟩ : MModel), MCmd.none)
         else ((⟨.select, c, p, es, er⟩ : MModel), MCmd.none)) := by
  rcases hk with rfl | rfl | rfl <;> rfl

/-- C4: A failed directory read leaves the navigator state — in particular
`currentPath` and the listing — exactly equal to its pre-attempt value except
for `lastError`, which is set to the failure delivered by the read.  First
conjunct: `part_000`'s `Update` on `errMsg`; second conjunct: `main.go`'s
synchronous read failure in the descend branch. -/
theorem C4_failed_read :
    (∀ (m : PModel) (e : String),
        pUpdate m (.errM e) = ({ m with err := some e }, PCmd.none)) ∧
    (∀ (fs : FS) (m : MModel) (entry : Entry) (e : String) (k : String),
        (k = "enter" ∨ k = "l" ∨ k = "right") →
        m.mode = MMode.select →
        m.entries[m.cursor]? = some entry → entry.isDir = true →
        fs (resolveNewPath m.currentPath entry.name) = Except.error e →
        mUpdate fs m k = ({ m with err := some e }, MCmd.none)) := by
  constructor
  · intro m e; rfl
  · intro fs m entry e k hk hmode hsel hdir hfs
    rcases m with ⟨mo, c, p, es, er⟩
    have hmo : mo = MMode.select := hmode
    subst hmo
    have hsel' : es[c]? = some entry := hsel
    have hfs' : fs (resolveNewPath p entry.name) = Except.error e := hfs
    rw [mUpdate_key_descend fs c p es er k hk, hsel']
    simp only [if_pos hdir, hfs']

/-- Witness for C4 at a concrete state and failing filesystem. -/
theorem C4_failed_read_witness :
    pUpdate ⟨"/h", "/h", ⟨[parentMark], 0, Option.none⟩, Option.none, false, ""⟩
        (.errM "open /h/x: permission denied") =
      (⟨"/h", "/h", ⟨[parentMark], 0, Option.none⟩,
        some "open /h/x: permission denied", false, ""⟩, PCmd.none) ∧
    mUpdate (fun _ => Except.error "open /a/b: permission denied")
        ⟨MMode.select, 1, "/a", [parentMark, ⟨"b", true⟩], Option.none⟩ "enter" =
      (⟨MMode.select, 1, "/a", [parentMark, ⟨"b", true⟩],
        some "open /a/b: permission denied"⟩, MCmd.none) := by
  constructor
  · exact C4_failed_read.1
      ⟨"/h", "/h", ⟨[parentMark], 0, Option.none⟩, Option.none, false, ""⟩
      "open /h/x: permission denied"
  · exact C4_failed_read.2 (fun _ => Except.error "open /a/b: permission denied")
      ⟨MMode.select, 1, "/a", [parentMark, ⟨"b", true⟩], Option.none⟩
      ⟨"b", true⟩ "open /a/b: permission denied" "enter"
      (Or.inl rfl) rfl rfl rfl rfl

/-- C2: When a descend event fires on a directory entry, the command issued
for the asynchronous read targets the parent of `currentPath` when the
highlighted entry is the parent marker — whatever the cursor position, since
the state is arbitrary — and `currentPath` joined with the entry's name for
every other directory entry. -/
theorem C2_descend_target (m : PModel) (e : Entry) (k : String)
    (hk : k = "enter" ∨ k = " " ∨ k = "l" ∨ k = "right")
    (hsel : selectedItem m.list = some e) (hdir : e.isDir = true) :
    (e.name = ".." →
      pUpdate m (.key k) = (m, .navigate (filepathDir m.currentPath))) ∧
    (e.name ≠ ".." →
      pUpdate m (.key k) = (m, .navigate (filepathJoin m.currentPath e.name))) := by
  have hred : pUpdate m (.key k) = handleEnterDirectory m := by
    rcases hk with rfl | rfl | rfl | rfl <;> rfl
  have henter : handleEnterDirectory m =
      (m, .navigate (resolveNewPath m.currentPath e.name)) := by
    unfold handleEnterDirectory
    rw [hsel]
    simp [hdir]
  constructor
  · intro hn
    rw [hred, henter]
    unfold resolveNewPath
    rw [if_pos hn]
  · intro hn
    rw [hred, henter]
    unfold resolveNewPath
    rw [if_neg hn]

/-- Witness for C2: marker selected at cursor position 1 resolves to the
parent directory; a plain directory entry resolves to the joined path. -/
theorem C2_descend_target_witness :
    pUpdate ⟨"/h", "/h/a/b", ⟨[⟨"x", true⟩, parentMark], 1, Option.none⟩,
        Option.none, false, ""⟩ (.key "enter") =
      (⟨"/h", "/h/a/b", ⟨[⟨"x", true⟩, parentMark], 1, Option.none⟩,
        Option.none, false, ""⟩, .navigate "/h/a") ∧
    pUpdate ⟨"/h", "/h/a/b", ⟨[⟨"x", true⟩, parentMark], 0, Option.none⟩,
        Option.none, false, ""⟩ (.key "enter") =
      (⟨"/h", "/h/a/b", ⟨[⟨"x", true⟩, parentMark], 0, Option.none⟩,
        Option.none, false, ""⟩, .navigate "/h/a/b/x") := by
  constructor
  · have h := (C2_descend_target
      ⟨"/h", "/h/a/b", ⟨[⟨"x", true⟩, parentMark], 1, Option.none⟩,
        Option.none, false, ""⟩ parentMark "enter"
      (Or.inl rfl) rfl rfl).1 rfl
    rw [h]
    rfl
  · have h := (C2_descend_target
      ⟨"/h", "/h/a/b", ⟨[⟨"x", true⟩, parentMark], 0, Option.none⟩,
        Option.none, false, ""⟩ ⟨"x", true⟩ "enter"
      (Or.inl rfl) rfl rfl).2 (by decide)
    rw [h]
    rfl

/-- C10: When export fires while the highlighted entry is the parent marker,
or while nothing is highlighted (for instance when an active filter matches
no entry), the selected path handed to the formatter is `currentPath`
itself, so every format code is applied to the current directory. -/
theorem C10_export_uses_current (m : PModel)
    (h : selectedItem m.list = Option.none ∨
         ∃ e, selectedItem m.list = some e ∧ e.name = "..") :
    getSelectedPath m = m.currentPath ∧
    (∀ getwd statIsDir home,
        getFormattedPath getwd statIsDir home m =
          formatPath getwd statIsDir home m.initialPath m.currentPath m.copyFormat) ∧
    (visibleItems m.list = [] → selectedItem m.list = Option.none) := by
  have hpath : getSelectedPath m = m.currentPath := by
    unfold getSelectedPath
    rcases h with hnone | ⟨e, hsel, hname⟩
    · rw [hnone]
    · rw [hsel]
      show (if e.name = ".." then m.currentPath else _) = m.currentPath
      rw [if_pos hname]
  refine ⟨hpath, fun getwd statIsDir home => ?_, fun hv => ?_⟩
  · unfold getFormattedPath
    rw [hpath]
  · unfold selectedItem
    rw [hv]
    exact List.getElem?_nil

/-- Witness for C10: an applied filter that matches nothing leaves no
selection, and the formatter consequently receives the current directory. -/
theorem C10_export_uses_current_witness :
    getSelectedPath ⟨"/h", "/h/sub", ⟨[parentMark, ⟨"b", true⟩], 0, some "zzz"⟩,
        Option.none, true, "a"⟩ = "/h/sub" ∧
    selectedItem (⟨[parentMark, ⟨"b", true⟩], 0, some "zzz"⟩ : BbList) = Option.none := by
  constructor
  · exact (C10_export_uses_current
      ⟨"/h", "/h/sub", ⟨[parentMark, ⟨"b", true⟩], 0, some "zzz"⟩, Option.none, true, "a"⟩
      (Or.inl (by decide))).1
  · exact (C10_export_uses_current
      ⟨"/h", "/h/sub", ⟨[parentMark, ⟨"b", true⟩], 0, some "zzz"⟩, Option.none, true, "a"⟩
      (Or.inl (by decide))).2.2 (by decide)

/-- C5 (code behavior at the failing input): in `part_000`, a successful
directory-read result replaces `currentPath` and the listing, resets the
cursor and the filter, but leaves a stale `err` untouched —
`handleDirChange` never clears it, so the error view persists after a
successful navigation.  The second conjunct shows the sibling variant in
`main.go` does clear the error on the same successful transition, matching
the specified behavior. -/
theorem C5_success_keeps_stale_error :
    (pUpdate ⟨"/h", "/h", ⟨[parentMark], 0, Option.none⟩,
        some "open /h/x: permission denied", false, ""⟩ (.dirChange "/tmp" [])).1 =
      ⟨"/h", "/tmp", ⟨[parentMark], 0, Option.none⟩,
        some "open /h/x: permission denied", false, ""⟩ ∧
    (mUpdate (fun _ => Except.ok [])
        ⟨MMode.select, 1, "/a", [parentMark, ⟨"b", true⟩], some "stale"⟩ "enter").1.err =
      Option.none := by
  exact ⟨rfl, rfl⟩

/-! ### Path element algebra -/

/-- A path element containing no separator. -/
def noSlash (c : List Char) : Bool := c.all fun x => !(x == '/')

/-- A plain path element: non-empty, separator-free, and neither `.` nor
`..`.  Exactly the elements `filepath.Clean` leaves in a rooted path, and the
shape of every name `os.ReadDir` can return. -/
def plainComp (c : List Char) : Bool :=
  !(c == []) && noSlash c && !(c == ['.']) && !(c == ['.', '.'])

theorem plainComp_spec {c : List Char} (h : plainComp c = true) :
    c ≠ [] ∧ (∀ x ∈ c, x ≠ '/') ∧ c ≠ ['.'] ∧ c ≠ ['.', '.'] := by
  simp only [plainComp, noSlash, Bool.and_eq_true, List.all_eq_true,
    Bool.not_eq_true', beq_eq_false_iff_ne] at h
  obtain ⟨⟨⟨h1, h2⟩, h3⟩, h4⟩ := h
  refine ⟨h1, fun x hx => ?_, h3, h4⟩
  have := h2 x hx
  simpa using this

theorem splitSlash_ne_nil : ∀ p, splitSlash p ≠ []
  | [] => by simp [splitSlash]
  | c :: rest => by
    by_cases h : c = '/'
    · simp [splitSlash, h]
    · simp only [splitSlash, if_neg h]
      cases hs : splitSlash rest with
      | nil => exact absurd hs (splitSlash_ne_nil rest)
      | cons g gs => simp

theorem joinSlash_splitSlash : ∀ p, joinSlash (splitSlash p) = p
  | [] => rfl
  | c :: rest => by
    by_cases h : c = '/'
    · subst h
      show joinSlash ([] :: splitSlash rest) = '/' :: rest
      cases hs : splitSlash rest with
      | nil => exact absurd hs (splitSlash_ne_nil rest)
      | cons g gs =>
        show [] ++ '/' :: joinSlash (g :: gs) = '/' :: rest
        rw [List.nil_append, ← hs, joinSlash_splitSlash rest]
    · simp only [splitSlash, if_neg h]
      cases hs : splitSlash rest with
      | nil => exact absurd hs (splitSlash_ne_nil rest)
      | cons g gs =>
        show joinSlash ((c :: g) :: gs) = c :: rest
        cases gs with
        | nil =>
          show c :: g = c :: rest
          have := joinSlash_splitSlash rest
          rw [hs] at this
          exact congrArg (c :: ·) this
        | cons g2 gs2 =>
          show (c :: g) ++ '/' :: joinSlash (g2 :: gs2) = c :: rest
          have := joinSlash_splitSlash rest
          rw [hs] at this
          show c :: (g ++ '/' :: joinSlash (g2 :: gs2)) = c :: rest
          exact congrArg (c :: ·) this

theorem splitSlash_cons_slash (b : List Char) : splitSlash ('/' :: b) = [] :: splitSlash b := rfl

theorem splitSlash_append_slash : ∀ {a : List Char}, (∀ x ∈ a, x ≠ '/') →
    ∀ b, splitSlash (a ++ '/' :: b) = a :: splitSlash b
  | [], _, b => rfl
  | c :: cs, h, b => by
    have hc : c ≠ '/' := h c (List.mem_cons_self c cs)
    have ih := splitSlash_append_slash (fun x hx => h x (List.mem_cons_of_mem c hx)) b
    show splitSlash (c :: (cs ++ '/' :: b)) = (c :: cs) :: splitSlash b
    simp only [splitSlash, if_neg hc, ih]

theorem splitSlash_noSlash : ∀ {a : List Char}, (∀ x ∈ a, x ≠ '/') → splitSlash a = [a]
  | [], _ => rfl
  | c :: cs, h => by
    have hc : c ≠ '/' := h c (List.mem_cons_self c cs)
    have ih := splitSlash_noSlash (fun x hx => h x (List.mem_cons_of_mem c hx))
    simp only [splitSlash, if_neg hc, ih]

theorem joinSlash_cons {c : List Char} {cs : List (List Char)} (h : cs ≠ []) :
    joinSlash (c :: cs) = c ++ '/' :: joinSlash cs := by
  cases cs with
  | nil => exact absurd rfl h
  | cons c2 cs2 => rfl

theorem splitSlash_joinSlash : ∀ {cs : List (List Char)},
    (∀ c ∈ cs, ∀ x ∈ c, x ≠ '/') → cs ≠ [] → splitSlash (joinSlash cs) = cs
  | [], _, hne => absurd rfl hne
  | [c], h, _ => splitSlash_noSlash (h c (List.mem_singleton.mpr rfl))
  | c :: c2 :: cs2, h, _ => by
    have hc : ∀ x ∈ c, x ≠ '/' := h c (List.mem_cons_self c _)
    have ih := splitSlash_joinSlash
      (fun d hd x hx => h d (List.mem_cons_of_mem c hd) x hx)
      (List.cons_ne_nil c2 cs2)
    show splitSlash (c ++ '/' :: joinSlash (c2 :: cs2)) = c :: c2 :: cs2
    rw [splitSlash_append_slash hc, ih]

theorem joinSlash_append_slash : ∀ {cs : List (List Char)}, cs ≠ [] →
    ∀ y, joinSlash (cs ++ [y]) = joinSlash cs ++ '/' :: y
  | [], hne, _ => absurd rfl hne
  | [c], _, y => rfl
  | c :: c2 :: cs2, _, y => by
    have ih := joinSlash_append_slash (List.cons_ne_nil c2 cs2) y
    show joinSlash (c :: ((c2 :: cs2) ++ [y])) = (c ++ '/' :: joinSlash (c2 :: cs2)) ++ '/' :: y
    rw [joinSlash_cons (by simp), ih]
    simp

theorem joinSlash_ne_nil {cs : List (List Char)} (hne : cs ≠ [])
    (h : ∀ c ∈ cs, c ≠ []) : joinSlash cs ≠ [] := by
  cases cs with
  | nil => exact absurd rfl hne
  | cons c cs2 =>
    cases cs2 with
    | nil => exact h c (List.mem_singleton.mpr rfl)
    | cons c2 cs3 =>
      show c ++ '/' :: joinSlash (c2 :: cs3) ≠ []
      simp

theorem cleanStep_skip (r : Bool) (acc : List (List Char)) {c : List Char}
    (h : c = [] ∨ c = ['.']) : cleanStep r acc c = acc := by
  unfold cleanStep
  rw [if_pos h]

theorem cleanStep_plain (r : Bool) (acc : List (List Char)) {c : List Char}
    (h : plainComp c = true) : cleanStep r acc c = c :: acc := by
  obtain ⟨h1, _, h3, h4⟩ := plainComp_spec h
  unfold cleanStep
  rw [if_neg (by simp [h1, h3]), if_neg h4]

theorem cleanStep_ddot_pop (r : Bool) {a : List Char} (acc : List (List Char))
    (h : a ≠ ['.', '.']) : cleanStep r (a :: acc) ['.', '.'] = acc := by
  unfold cleanStep
  rw [if_neg (by simp), if_pos rfl]
  exact if_neg h

theorem foldl_cleanStep_plain (r : Bool) : ∀ {cs : List (List Char)},
    (∀ c ∈ cs, plainComp c = true) → ∀ acc,
    cs.foldl (cleanStep r) acc = cs.reverse ++ acc
  | [], _, acc => rfl
  | c :: cs2, h, acc => by
    have hc := h c (List.mem_cons_self c cs2)
    have ih := foldl_cleanStep_plain r
      (fun d hd => h d (List.mem_cons_of_mem c hd)) (c :: acc)
    rw [List.foldl_cons, cleanStep_plain r acc hc, ih]
    simp

theorem foldl_cleanStep_popAll : ∀ {xs : List (List Char)},
    (∀ x ∈ xs, plainComp x = true) → ∀ acc,
    (List.replicate xs.length ['.', '.']).foldl (cleanStep true) (xs ++ acc) = acc
  | [], _, acc => rfl
  | x :: xs2, h, acc => by
    have hx := plainComp_spec (h x (List.mem_cons_self x xs2))
    have ih := foldl_cleanStep_popAll (fun d hd => h d (List.mem_cons_of_mem x hd)) acc
    show (List.replicate (xs2.length + 1) ['.', '.']).foldl (cleanStep true)
        (x :: (xs2 ++ acc)) = acc
    rw [List.replicate_succ, List.foldl_cons, cleanStep_ddot_pop true (xs2 ++ acc) hx.2.2.2]
    exact ih

theorem goCleanL_rooted (rest : List Char) :
    goCleanL ('/' :: rest) =
      '/' :: joinSlash (((splitSlash ('/' :: rest)).foldl (cleanStep true) []).reverse) := rfl

/-- Elements of a list all satisfying `plainComp` contain no separator. -/
theorem noSlash_of_plain {cs : List (List Char)} (h : ∀ c ∈ cs, plainComp c = true) :
    ∀ c ∈ cs, ∀ x ∈ c, x ≠ '/' :=
  fun c hc => (plainComp_spec (h c hc)).2.1

theorem splitSlash_join_slash : ∀ {cs : List (List Char)}, cs ≠ [] →
    (∀ c ∈ cs, ∀ x ∈ c, x ≠ '/') → ∀ y,
    splitSlash (joinSlash cs ++ '/' :: y) = cs ++ splitSlash y
  | [], hne, _, _ => absurd rfl hne
  | [c], _, h, y => by
    show splitSlash (c ++ '/' :: y) = [c] ++ splitSlash y
    rw [splitSlash_append_slash (h c (List.mem_singleton.mpr rfl))]
    rfl
  | c :: c2 :: cs2, _, h, y => by
    have ih := splitSlash_join_slash (List.cons_ne_nil c2 cs2)
      (fun d hd x hx => h d (List.mem_cons_of_mem c hd) x hx) y
    rw [joinSlash_cons (List.cons_ne_nil c2 cs2), List.cons_append, List.append_assoc]
    show splitSlash (c ++ '/' :: (joinSlash (c2 :: cs2) ++ '/' :: y)) = _
    rw [splitSlash_append_slash (h c (List.mem_cons_self c _)), ih]

/-- `Clean` is the identity on a rooted path whose elements are plain. -/
theorem goCleanL_abs_plain {comps : List (List Char)}
    (h : ∀ c ∈ comps, plainComp c = true) :
    goCleanL ('/' :: joinSlash comps) = '/' :: joinSlash comps := by
  cases comps with
  | nil => rfl
  | cons c cs =>
    rw [goCleanL_rooted, splitSlash_cons_slash,
      splitSlash_joinSlash (noSlash_of_plain h) (List.cons_ne_nil c cs),
      List.foldl_cons, cleanStep_skip true [] (Or.inl rfl),
      foldl_cleanStep_plain true h, List.append_nil, List.reverse_reverse]

/-- Joining a plain element onto a clean rooted path appends one element. -/
theorem goCleanL_abs_snoc {comps : List (List Char)} {name : List Char}
    (hc : ∀ c ∈ comps, plainComp c = true) (hn : plainComp name = true) :
    goCleanL (('/' :: joinSlash comps) ++ '/' :: name) =
      '/' :: joinSlash (comps ++ [name]) := by
  have hplainAll : ∀ c ∈ comps ++ [name], plainComp c = true := by
    intro c hcmem
    rcases List.mem_append.mp hcmem with hl | hr
    · exact hc c hl
    · rw [List.mem_singleton.mp hr]; exact hn
  cases comps with
  | nil =>
    show goCleanL ('/' :: '/' :: name) = '/' :: joinSlash [name]
    rw [goCleanL_rooted, splitSlash_cons_slash, splitSlash_cons_slash,
      splitSlash_noSlash ((plainComp_spec hn).2.1),
      List.foldl_cons, cleanStep_skip true [] (Or.inl rfl),
      List.foldl_cons, cleanStep_skip true [] (Or.inl rfl)]
    rw [foldl_cleanStep_plain true (fun c hcm => by
        rw [List.mem_singleton.mp hcm]; exact hn),
      List.append_nil, List.reverse_reverse]
  | cons c cs =>
    rw [List.cons_append]
    show goCleanL ('/' :: (joinSlash (c :: cs) ++ '/' :: name)) = _
    rw [goCleanL_rooted, splitSlash_cons_slash,
      splitSlash_join_slash (List.cons_ne_nil c cs) (noSlash_of_plain hc) name,
      splitSlash_noSlash ((plainComp_spec hn).2.1),
      List.foldl_cons, cleanStep_skip true [] (Or.inl rfl),
      foldl_cleanStep_plain true hplainAll, List.append_nil, List.reverse_reverse]

theorem dropWhile_notSlash_append {l l2 : List Char} (h : ∀ x ∈ l, x ≠ '/') :
    (l ++ l2).dropWhile (fun c => !(c == '/')) = l2.dropWhile (fun c => !(c == '/')) := by
  induction l with
  | nil => rfl
  | cons x xs ih =>
    rw [List.cons_append, List.dropWhile_cons]
    have hx : (!(x == '/')) = true := by
      simp [h x (List.mem_cons_self x xs)]
    rw [if_pos hx]
    exact ih fun d hd => h d (List.mem_cons_of_mem x hd)

theorem dropWhile_notSlash_cons_slash (l : List Char) :
    ('/' :: l).dropWhile (fun c => !(c == '/')) = '/' :: l := by
  rw [List.dropWhile_cons]
  simp

/-- `Dir` strips exactly the final element of a clean rooted path with at
least one element. -/
theorem filepathDirL_abs_snoc {comps : List (List Char)} {name : List Char}
    (hc : ∀ c ∈ comps, plainComp c = true) (hn : plainComp name = true) :
    filepathDirL ('/' :: joinSlash (comps ++ [name])) = '/' :: joinSlash comps := by
  have hnosl : ∀ x ∈ name.reverse, x ≠ '/' := by
    intro x hx
    exact (plainComp_spec hn).2.1 x (List.mem_reverse.mp hx)
  cases comps with
  | nil =>
    show filepathDirL ('/' :: joinSlash [name]) = '/' :: joinSlash []
    unfold filepathDirL
    rw [show ('/' :: joinSlash [name]) = '/' :: name from rfl,
      List.reverse_cons, dropWhile_notSlash_append hnosl]
    rfl
  | cons c cs =>
    unfold filepathDirL
    rw [joinSlash_append_slash (List.cons_ne_nil c cs) name]
    rw [show ('/' :: (joinSlash (c :: cs) ++ '/' :: name)) =
          ('/' :: joinSlash (c :: cs)) ++ '/' :: name by simp]
    rw [List.reverse_append, List.reverse_cons, List.append_assoc,
      dropWhile_notSlash_append hnosl, List.singleton_append,
      dropWhile_notSlash_cons_slash, List.reverse_cons, List.reverse_reverse]
    rw [show ('/' :: joinSlash (c :: cs)) ++ ['/'] = '/' :: (joinSlash (c :: cs) ++ ['/'])
        from rfl]
    rw [goCleanL_rooted, splitSlash_cons_slash,
      show joinSlash (c :: cs) ++ ['/'] = joinSlash (c :: cs) ++ '/' :: [] from rfl,
      splitSlash_join_slash (List.cons_ne_nil c cs) (noSlash_of_plain hc) [],
      List.foldl_cons, cleanStep_skip true [] (Or.inl rfl),
      show splitSlash [] = [[]] from rfl,
      List.foldl_append, foldl_cleanStep_plain true hc, List.append_nil,
      List.foldl_cons, cleanStep_skip true _ (Or.inl rfl), List.foldl_nil,
      List.reverse_reverse]

/-- Round trip of the two path operations the navigator uses: descending
into a plain-named child and taking `Dir` again restores a clean rooted
path. -/
theorem dirL_joinL_roundtrip {comps : List (List Char)} {name : List Char}
    (hc : ∀ c ∈ comps, plainComp c = true) (hn : plainComp name = true) :
    filepathDirL (filepathJoinL ('/' :: joinSlash comps) name) = '/' :: joinSlash comps := by
  unfold filepathJoinL
  rw [if_pos (by simp : ('/' :: joinSlash comps) ≠ []),
    goCleanL_abs_snoc hc hn, filepathDirL_abs_snoc hc hn]

/-- Recognizer for clean rooted paths: `"/"`, or `'/'` followed by plain
elements.  Exactly the shape of `filepath.Clean`'s output on rooted input,
and an invariant of every `currentPath` the navigator reaches from a clean
absolute working directory. -/
def cleanAbsL (p : List Char) : Bool :=
  match p with
  | [] => false
  | c :: r => c == '/' && (r == [] || (splitSlash r).all plainComp)

/-- String-level wrapper for `cleanAbsL`. -/
def isCleanAbs (s : String) : Bool := cleanAbsL s.data

theorem cleanAbsL_elim {p : List Char} (h : cleanAbsL p = true) :
    ∃ comps, p = '/' :: joinSlash comps ∧ ∀ c ∈ comps, plainComp c = true := by
  cases p with
  | nil => exact absurd h (by decide)
  | cons c r =>
    have h' : (c == '/') = true ∧ ((r == []) || (splitSlash r).all plainComp) = true :=
      Bool.and_eq_true .. |>.mp h
    have hc : c = '/' := by simpa using h'.1
    subst hc
    rcases Bool.or_eq_true .. |>.mp h'.2 with hr | hall
    · refine ⟨[], ?_, by simp⟩
      have : r = [] := by simpa using hr
      rw [this]
      rfl
    · refine ⟨splitSlash r, ?_, ?_⟩
      · rw [joinSlash_splitSlash]
      · exact fun d hd => List.all_eq_true.mp hall d hd

/-- String-level round trip: `Dir (Join cur name) = cur` for a clean
absolute `cur` and a plain entry name. -/
theorem resolve_roundtrip {cur name : String} (hcur : isCleanAbs cur = true)
    (hname : plainComp name.data = true) :
    filepathDir (filepathJoin cur name) = cur := by
  obtain ⟨comps, hdata, hplain⟩ := cleanAbsL_elim hcur
  cases cur with
  | mk data =>
    have hdata' : data = '/' :: joinSlash comps := hdata
    show String.mk (filepathDirL (filepathJoinL data name.data)) = String.mk data
    rw [hdata', dirL_joinL_roundtrip hplain hname]

/-- C8: On an unchanged filesystem, descending into a directory entry and
then descending via the parent marker returns the navigator to the original
`currentPath` with the cursor reset to 0, for every plain directory-entry
name (the shape of every name the listing builder receives from a read). -/
theorem C8_roundtrip (fs : FS) (m : MModel) (e : Entry) (es1 es0 : List Entry)
    (hmode : m.mode = MMode.select)
    (hcur : isCleanAbs m.currentPath = true)
    (hsel : m.entries[m.cursor]? = some e)
    (hdir : e.isDir = true)
    (hname : plainComp e.name.data = true)
    (hdown : fs (filepathJoin m.currentPath e.name) = Except.ok es1)
    (hback : fs m.currentPath = Except.ok es0) :
    (mUpdate fs m "enter").1.currentPath = filepathJoin m.currentPath e.name ∧
    (mUpdate fs m "enter").1.cursor = 0 ∧
    (mUpdate fs (mUpdate fs m "enter").1 "enter").1.currentPath = m.currentPath ∧
    (mUpdate fs (mUpdate fs m "enter").1 "enter").1.cursor = 0 := by
  rcases m with ⟨mo, c, p, es, er⟩
  have hmo : mo = MMode.select := hmode
  subst hmo
  have hcur' : isCleanAbs p = true := hcur
  have hsel' : es[c]? = some e := hsel
  have hdown' : fs (filepathJoin p e.name) = Except.ok es1 := hdown
  have hback' : fs p = Except.ok es0 := hback
  have hne : e.name ≠ ".." := by
    intro hcontra
    exact (plainComp_spec hname).2.2.2 (by rw [hcontra])
  have hres : resolveNewPath p e.name = filepathJoin p e.name := by
    unfold resolveNewPath
    rw [if_neg hne]
  have h1 : mUpdate fs ⟨.select, c, p, es, er⟩ "enter" =
      (⟨.select, 0, filepathJoin p e.name, createListItems es1, Option.none⟩, .none) := by
    rw [mUpdate_key_descend fs c p es er "enter" (Or.inl rfl), hsel']
    simp only [if_pos hdir, hres, hdown']
  have hdirRes : resolveNewPath (filepathJoin p e.name) ".." = p := by
    unfold resolveNewPath
    rw [if_pos rfl]
    exact resolve_roundtrip hcur' hname
  have h2 : mUpdate fs ⟨.select, 0, filepathJoin p e.name, createListItems es1,
      Option.none⟩ "enter" = (⟨.select, 0, p, createListItems es0, Option.none⟩, .none) := by
    rw [mUpdate_key_descend fs 0 (filepathJoin p e.name) (createListItems es1)
      Option.none "enter" (Or.inl rfl)]
    rw [show (createListItems es1)[0]? = some parentMark by simp [createListItems]]
    simp only [if_pos (show parentMark.isDir = true from rfl)]
    rw [show parentMark.name = ".." from rfl, hdirRes, hback']
  rw [h1, h2]
  exact ⟨rfl, rfl, rfl, rfl⟩

/-- Witness for C8: descend from `/a` into `b`, then descend on the marker. -/
theorem C8_roundtrip_witness :
    ((mUpdate (fun q => if q = "/a" then Except.ok [⟨"b", true⟩]
        else if q = "/a/b" then Except.ok ([] : List Entry) else Except.error "e")
        ⟨MMode.select, 1, "/a", [parentMark, ⟨"b", true⟩], Option.none⟩ "enter").1.currentPath
      = filepathJoin "/a" "b") ∧
    ((mUpdate (fun q => if q = "/a" then Except.ok [⟨"b", true⟩]
        else if q = "/a/b" then Except.ok ([] : List Entry) else Except.error "e")
        ((mUpdate (fun q => if q = "/a" then Except.ok [⟨"b", true⟩]
          else if q = "/a/b" then Except.ok ([] : List Entry) else Except.error "e")
          ⟨MMode.select, 1, "/a", [parentMark, ⟨"b", true⟩], Option.none⟩ "enter").1)
        "enter").1.currentPath = "/a") := by
  have h := C8_roundtrip
    (fun q => if q = "/a" then Except.ok [⟨"b", true⟩]
      else if q = "/a/b" then Except.ok ([] : List Entry) else Except.error "e")
    ⟨MMode.select, 1, "/a", [parentMark, ⟨"b", true⟩], Option.none⟩
    ⟨"b", true⟩ [] [⟨"b", true⟩]
    rfl (by decide) rfl rfl (by decide) rfl rfl
  exact ⟨h.1, h.2.2.1⟩

/-- Joining `.` onto a clean rooted path is the identity. -/
theorem filepathJoinL_abs_dot {comps : List (List Char)}
    (h : ∀ c ∈ comps, plainComp c = true) :
    filepathJoinL ('/' :: joinSlash comps) ['.'] = '/' :: joinSlash comps := by
  unfold filepathJoinL
  rw [if_pos (by simp : ('/' :: joinSlash comps) ≠ [])]
  cases comps with
  | nil => rfl
  | cons c cs =>
    rw [List.cons_append]
    show goCleanL ('/' :: (joinSlash (c :: cs) ++ '/' :: ['.'])) = _
    rw [goCleanL_rooted, splitSlash_cons_slash,
      splitSlash_join_slash (List.cons_ne_nil c cs) (noSlash_of_plain h) ['.'],
      splitSlash_noSlash (by intro x hx; rw [List.mem_singleton.mp hx]; decide),
      List.foldl_cons, cleanStep_skip true [] (Or.inl rfl),
      List.foldl_append, foldl_cleanStep_plain true h, List.append_nil,
      List.foldl_cons, cleanStep_skip true _ (Or.inr rfl), List.foldl_nil,
      List.reverse_reverse]

theorem dropCommon_spec : ∀ a b : List (List Char),
    ∃ pre, a = pre ++ (dropCommon a b).1 ∧ b = pre ++ (dropCommon a b).2
  | [], bs => ⟨[], rfl, rfl⟩
  | a :: as, [] => ⟨[], rfl, rfl⟩
  | a :: as, b :: bs => by
    by_cases hab : a = b
    · subst hab
      have heq : dropCommon (a :: as) (a :: bs) = dropCommon as bs := by
        show (if a = a then dropCommon as bs else (a :: as, a :: bs)) = dropCommon as bs
        rw [if_pos rfl]
      obtain ⟨pre, h1, h2⟩ := dropCommon_spec as bs
      refine ⟨a :: pre, ?_, ?_⟩
      · rw [heq, List.cons_append]
        exact congrArg (List.cons a) h1
      · rw [heq, List.cons_append]
        exact congrArg (List.cons a) h2
    · have heq : dropCommon (a :: as) (b :: bs) = (a :: as, b :: bs) := by
        show (if a = b then dropCommon as bs else (a :: as, b :: bs)) = (a :: as, b :: bs)
        rw [if_neg hab]
      exact ⟨[], by rw [heq]; rfl, by rw [heq]; rfl⟩

/-- Element processing of a rooted `Clean` on the raw element sequence that
`Join(base, Rel(base, targ))` produces: the shared prefix survives, the `..`
elements cancel the remaining base elements, and the remaining target
elements are appended. -/
theorem foldl_cleanStep_rel (pre bc2 tc2 : List (List Char))
    (hpre : ∀ c ∈ pre, plainComp c = true)
    (hbc2 : ∀ c ∈ bc2, plainComp c = true)
    (htc2 : ∀ c ∈ tc2, plainComp c = true) :
    ((pre ++ bc2) ++ (List.replicate bc2.length ['.', '.'] ++ tc2)).foldl
        (cleanStep true) [] = tc2.reverse ++ pre.reverse := by
  have hall : ∀ c ∈ pre ++ bc2, plainComp c = true := by
    intro c hc
    rcases List.mem_append.mp hc with h | h
    · exact hpre c h
    · exact hbc2 c h
  have h1 : (pre ++ bc2).foldl (cleanStep true) [] = bc2.reverse ++ pre.reverse := by
    rw [foldl_cleanStep_plain true hall, List.append_nil, List.reverse_append]
  have h2 : (List.replicate bc2.length ['.', '.']).foldl (cleanStep true)
      (bc2.reverse ++ pre.reverse) = pre.reverse := by
    rw [show bc2.length = bc2.reverse.length from (List.length_reverse bc2).symm]
    exact foldl_cleanStep_popAll (fun x hx => hbc2 x (List.mem_reverse.mp hx)) pre.reverse
  rw [List.foldl_append, List.foldl_append, h1, h2, foldl_cleanStep_plain true htc2]

theorem relBaseComps_rooted (r : List Char) :
    relBaseComps ('/' :: r) = if r = [] then [] else splitSlash r := rfl

theorem relTargComps_rooted (r : List Char) :
    relTargComps ('/' :: r) = if r = [] then [] else splitSlash r := rfl

theorem joinSlash_inj_plain {bc tc : List (List Char)}
    (hbc : ∀ c ∈ bc, plainComp c = true) (htc : ∀ c ∈ tc, plainComp c = true)
    (h : joinSlash bc = joinSlash tc) : bc = tc := by
  cases bc with
  | nil =>
    cases tc with
    | nil => rfl
    | cons c cs =>
      exact absurd h.symm (joinSlash_ne_nil (List.cons_ne_nil c cs)
        (fun d hd => (plainComp_spec (htc d hd)).1))
  | cons b bs =>
    cases tc with
    | nil =>
      exact absurd h (joinSlash_ne_nil (List.cons_ne_nil b bs)
        (fun d hd => (plainComp_spec (hbc d hd)).1))
    | cons c cs =>
      have h1 := splitSlash_joinSlash (noSlash_of_plain hbc) (List.cons_ne_nil b bs)
      have h2 := splitSlash_joinSlash (noSlash_of_plain htc) (List.cons_ne_nil c cs)
      rw [← h1, ← h2, h]

theorem relBaseComps_abs_plain {bc : List (List Char)}
    (hbc : ∀ c ∈ bc, plainComp c = true) :
    relBaseComps ('/' :: joinSlash bc) = bc := by
  rw [relBaseComps_rooted]
  cases bc with
  | nil => rfl
  | cons c cs =>
    rw [if_neg (joinSlash_ne_nil (List.cons_ne_nil c cs)
      (fun d hd => (plainComp_spec (hbc d hd)).1))]
    exact splitSlash_joinSlash (noSlash_of_plain hbc) (List.cons_ne_nil c cs)

theorem relTargComps_abs_plain {tc : List (List Char)}
    (htc : ∀ c ∈ tc, plainComp c = true) :
    relTargComps ('/' :: joinSlash tc) = tc := by
  rw [relTargComps_rooted]
  cases tc with
  | nil => rfl
  | cons c cs =>
    rw [if_neg (joinSlash_ne_nil (List.cons_ne_nil c cs)
      (fun d hd => (plainComp_spec (htc d hd)).1))]
    exact splitSlash_joinSlash (noSlash_of_plain htc) (List.cons_ne_nil c cs)

/-- An extra separator after the root is removed by `Clean`. -/
theorem goCleanL_abs_extra_slash {tc : List (List Char)}
    (htc : ∀ c ∈ tc, plainComp c = true) :
    goCleanL ('/' :: '/' :: joinSlash tc) = '/' :: joinSlash tc := by
  cases tc with
  | nil => rfl
  | cons c cs =>
    rw [goCleanL_rooted, splitSlash_cons_slash, splitSlash_cons_slash,
      splitSlash_joinSlash (noSlash_of_plain htc) (List.cons_ne_nil c cs),
      List.foldl_cons, cleanStep_skip true [] (Or.inl rfl),
      List.foldl_cons, cleanStep_skip true [] (Or.inl rfl),
      foldl_cleanStep_plain true htc, List.append_nil, List.reverse_reverse]

/-- `Rel` between two clean rooted paths always succeeds, and joining its
result back onto the base reproduces the target. -/
theorem goRelL_abs_total {bc0 tc0 : List (List Char)}
    (hbc : ∀ c ∈ bc0, plainComp c = true) (htc : ∀ c ∈ tc0, plainComp c = true) :
    ∃ r, goRelL ('/' :: joinSlash bc0) ('/' :: joinSlash tc0) = some r ∧
      filepathJoinL ('/' :: joinSlash bc0) r = '/' :: joinSlash tc0 := by
  have hbase := goCleanL_abs_plain hbc
  have htarg := goCleanL_abs_plain htc
  by_cases heq : ('/' :: joinSlash bc0 : List Char) = '/' :: joinSlash tc0
  · refine ⟨['.'], ?_, ?_⟩
    · unfold goRelL
      rw [hbase, htarg, if_pos heq]
    · rw [← heq]
      exact filepathJoinL_abs_dot hbc
  · obtain ⟨pre, hb, ht⟩ := dropCommon_spec bc0 tc0
    have hbc2 : ∀ c ∈ (dropCommon bc0 tc0).1, plainComp c = true := by
      intro c hc
      exact hbc c (hb ▸ List.mem_append.mpr (Or.inr hc))
    have htc2 : ∀ c ∈ (dropCommon bc0 tc0).2, plainComp c = true := by
      intro c hc
      exact htc c (ht ▸ List.mem_append.mpr (Or.inr hc))
    have hpre : ∀ c ∈ pre, plainComp c = true := by
      intro c hc
      exact hbc c (hb ▸ List.mem_append.mpr (Or.inl hc))
    have hhead : ¬ (dropCommon bc0 tc0).1.head? = some ['.', '.'] := by
      cases hd : (dropCommon bc0 tc0).1 with
      | nil => simp
      | cons x xs =>
        intro hcontra
        have hx : x = ['.', '.'] := by simpa using hcontra
        have hxplain := hbc2 x (by rw [hd]; exact List.mem_cons_self x xs)
        exact (plainComp_spec hxplain).2.2.2 hx
    refine ⟨joinSlash (List.replicate (dropCommon bc0 tc0).1.length ['.', '.'] ++
        (dropCommon bc0 tc0).2), ?_, ?_⟩
    · unfold goRelL
      rw [hbase, htarg, if_neg heq,
        if_neg (by simp [isAbsL] :
          ¬ isAbsL ('/' :: joinSlash bc0) ≠ isAbsL ('/' :: joinSlash tc0)),
        relBaseComps_abs_plain hbc, relTargComps_abs_plain htc, if_neg hhead]
    · -- joining the result back onto the base reproduces the target
      have hnonempty : List.replicate (dropCommon bc0 tc0).1.length ['.', '.'] ++
          (dropCommon bc0 tc0).2 ≠ [] := by
        intro hcontra
        rcases List.append_eq_nil.mp hcontra with ⟨h1, h2⟩
        have hnil : (dropCommon bc0 tc0).1 = [] :=
          List.length_eq_zero.mp (by simpa using congrArg List.length h1)
        have hb' : bc0 = pre := by rw [hb, hnil, List.append_nil]
        have ht' : tc0 = pre := by rw [ht, h2, List.append_nil]
        exact heq (by rw [hb', ht'])
      have hnos : ∀ c ∈ List.replicate (dropCommon bc0 tc0).1.length ['.', '.'] ++
          (dropCommon bc0 tc0).2, ∀ x ∈ c, x ≠ '/' := by
        intro c hc x hx
        rcases List.mem_append.mp hc with h | h
        · rw [List.eq_of_mem_replicate h] at hx
          have hxd : x = '.' := by simpa using hx
          subst hxd
          decide
        · exact (plainComp_spec (htc2 c h)).2.1 x hx
      unfold filepathJoinL
      rw [if_pos (by simp : ('/' :: joinSlash bc0 : List Char) ≠ [])]
      by_cases hbc0 : bc0 = []
      · have hnil : pre ++ (dropCommon bc0 tc0).1 = [] := by rw [← hb, hbc0]
        have hpre0 : pre = [] := (List.append_eq_nil.mp hnil).1
        have hbc20 : (dropCommon bc0 tc0).1 = [] := (List.append_eq_nil.mp hnil).2
        rw [hpre0] at ht
        rw [List.nil_append] at ht
        rw [hbc20, ← ht, hbc0]
        show goCleanL ('/' :: '/' :: joinSlash tc0) = '/' :: joinSlash tc0
        exact goCleanL_abs_extra_slash htc
      · rw [List.cons_append]
        show goCleanL ('/' :: (joinSlash bc0 ++ '/' :: joinSlash
          (List.replicate (dropCommon bc0 tc0).1.length ['.', '.'] ++
            (dropCommon bc0 tc0).2))) = _
        rw [goCleanL_rooted, splitSlash_cons_slash,
          splitSlash_join_slash hbc0 (noSlash_of_plain hbc) _,
          splitSlash_joinSlash hnos hnonempty,
          List.foldl_cons, cleanStep_skip true [] (Or.inl rfl)]
        rw [show bc0 ++ (List.replicate (dropCommon bc0 tc0).1.length ['.', '.'] ++
            (dropCommon bc0 tc0).2) =
          (pre ++ (dropCommon bc0 tc0).1) ++ (List.replicate (dropCommon bc0 tc0).1.length
            ['.', '.'] ++ (dropCommon bc0 tc0).2) by rw [← hb]]
        rw [foldl_cleanStep_rel pre _ _ hpre hbc2 htc2,
          List.reverse_append, List.reverse_reverse, List.reverse_reverse, ← ht]

theorem formatPath_r (getwd : Option String) (statIsDir : String → Option Bool)
    (home : Option String) (ip sel : String) :
    formatPath getwd statIsDir home ip sel "r" =
      (match goRel ip sel with
       | Option.none => .error ("failed to get relative path: " ++ relErrMsg ip sel)
       | some r => .ok r) := rfl

/-- C7: The relative format code returns the selected path expressed
relative to the initial working directory — joining the result back onto the
initial directory reproduces the selected path — and for the absolute paths
the program actually passes (both rooted, hence sharing the root) it never
fails; when `Rel` does fail (paths sharing no root, e.g. one rooted and one
not), the formatter surfaces the failure and the export step after loop
termination aborts, reporting the failure instead of a path. -/
theorem C7_relative_format :
    (∀ base targ : String, isCleanAbs base = true → isCleanAbs targ = true →
        ∃ r, goRel base targ = some r ∧ filepathJoin base r = targ) ∧
    (∀ (getwd : Option String) (statIsDir : String → Option Bool) (home : Option String)
        (m : PModel) (r : String), m.copyFormat = "r" →
        goRel m.initialPath (getSelectedPath m) = some r →
        getFormattedPath getwd statIsDir home m = .ok r) ∧
    (∀ (getwd : Option String) (statIsDir : String → Option Bool) (home : Option String)
        (m : PModel), m.copyFormat = "r" →
        goRel m.initialPath (getSelectedPath m) = Option.none →
        getFormattedPath getwd statIsDir home m =
          .error ("failed to get relative path: " ++
            relErrMsg m.initialPath (getSelectedPath m))) ∧
    (∀ (getwd : Option String) (statIsDir : String → Option Bool) (home : Option String)
        (m : PModel) (e : String), m.copyPath = true →
        getFormattedPath getwd statIsDir home m = .error e →
        runExport getwd statIsDir home m =
          some (.error ("failed to format path: " ++ e))) := by
  refine ⟨?_, ?_, ?_, ?_⟩
  · intro base targ hbase htarg
    obtain ⟨bc0, hbdata, hbplain⟩ := cleanAbsL_elim hbase
    obtain ⟨tc0, htdata, htplain⟩ := cleanAbsL_elim htarg
    obtain ⟨rl, h1, h2⟩ := goRelL_abs_total hbplain htplain
    refine ⟨⟨rl⟩, ?_, ?_⟩
    · unfold goRel
      rw [hbdata, htdata, h1]
      rfl
    · cases targ with
      | mk tdata =>
        show String.mk (filepathJoinL base.data rl) = String.mk tdata
        rw [hbdata, h2, ← htdata]
  · intro getwd statIsDir home m r hfmt hrel
    unfold getFormattedPath
    rw [hfmt, formatPath_r, hrel]
  · intro getwd statIsDir home m hfmt hrel
    unfold getFormattedPath
    rw [hfmt, formatPath_r, hrel]
  · intro getwd statIsDir home m e hcopy herr
    unfold runExport
    rw [if_pos hcopy, herr]

/-- Witness for C7: the spec's format scenario, and a cross-root failure
propagating to an aborted export. -/
theorem C7_relative_format_witness :
    (∃ r, goRel "/home/alice/projects" "/home/alice/projects/app/README.md" = some r ∧
      filepathJoin "/home/alice/projects" r = "/home/alice/projects/app/README.md") ∧
    runExport Option.none (fun _ => Option.none) Option.none
        ⟨"x", "/h", ⟨[], 0, Option.none⟩, Option.none, true, "r"⟩ =
      some (.error ("failed to format path: failed to get relative path: " ++
        "Rel: can't make /h relative to x")) := by
  constructor
  · exact C7_relative_format.1 "/home/alice/projects"
      "/home/alice/projects/app/README.md" (by decide) (by decide)
  · have herr := C7_relative_format.2.2.1 Option.none (fun _ => Option.none) Option.none
      ⟨"x", "/h", ⟨[], 0, Option.none⟩, Option.none, true, "r"⟩ rfl (by decide)
    have habort := C7_relative_format.2.2.2 Option.none (fun _ => Option.none) Option.none
      ⟨"x", "/h", ⟨[], 0, Option.none⟩, Option.none, true, "r"⟩ _ rfl herr
    rw [habort]
    rfl

/-- Directory-only resolution shared by the `d` and `p` format codes: if the
(best-effort) metadata lookup says the path is a regular file, substitute its
containing directory; on lookup failure or for directories keep the path. -/
def dirOnlyPath (statIsDir : String → Option Bool) (absPath : String) : String :=
  if statIsDir absPath = some false then filepathDir absPath else absPath

theorem formatPath_p (getwd : Option String) (statIsDir : String → Option Bool)
    (home : Option String) (ip sel : String) :
    formatPath getwd statIsDir home ip sel "p" =
      (match goAbs getwd sel with
       | .error e => .error ("failed to get absolute path: " ++ e)
       | .ok absPath =>
         match home with
         | some homeDir =>
           (match goRel homeDir (dirOnlyPath statIsDir absPath) with
            | some relPath =>
              if ¬ isAbsPath relPath ∧ relPath.data ≠ [] ∧ relPath.data.head? ≠ some '.' then
                .ok (filepathJoin "$HOME" relPath)
              else .ok (dirOnlyPath statIsDir absPath)
            | Option.none => .ok (dirOnlyPath statIsDir absPath))
         | Option.none => .ok (dirOnlyPath statIsDir absPath)) := rfl

/-- C3 (amended): For every selected path and oracle configuration with an
absolute selected path, the home-relative format code never fails; it
outputs the home-placeholder-joined relative form exactly when the home
directory is determinable, the relative form exists, is non-empty, is not
absolute, and its first character is not `'.'`; in every other case it
outputs the directory-only absolute path. -/
theorem C3_home_format (getwd : Option String) (statIsDir : String → Option Bool)
    (home : Option String) (m : PModel)
    (hfmt : m.copyFormat = "p") (habs : isAbsPath (getSelectedPath m) = true) :
    ∃ out, getFormattedPath getwd statIsDir home m = .ok out ∧
      ((∃ homeDir r, home = some homeDir ∧
          goRel homeDir (dirOnlyPath statIsDir (goClean (getSelectedPath m))) = some r ∧
          isAbsPath r = false ∧ r.data ≠ [] ∧ r.data.head? ≠ some '.' ∧
          out = filepathJoin "$HOME" r) ∨
       (out = dirOnlyPath statIsDir (goClean (getSelectedPath m)) ∧
        ∀ homeDir r, home = some homeDir →
          goRel homeDir (dirOnlyPath statIsDir (goClean (getSelectedPath m))) = some r →
          ¬(isAbsPath r = false ∧ r.data ≠ [] ∧ r.data.head? ≠ some '.'))) := by
  have hok : goAbs getwd (getSelectedPath m) = .ok (goClean (getSelectedPath m)) := by
    unfold goAbs
    rw [if_pos habs]
  have hred : getFormattedPath getwd statIsDir home m =
      (match home with
       | some homeDir =>
         (match goRel homeDir (dirOnlyPath statIsDir (goClean (getSelectedPath m))) with
          | some relPath =>
            if ¬ isAbsPath relPath ∧ relPath.data ≠ [] ∧ relPath.data.head? ≠ some '.' then
              .ok (filepathJoin "$HOME" relPath)
            else .ok (dirOnlyPath statIsDir (goClean (getSelectedPath m)))
          | Option.none => .ok (dirOnlyPath statIsDir (goClean (getSelectedPath m))))
       | Option.none => .ok (dirOnlyPath statIsDir (goClean (getSelectedPath m)))) := by
    unfold getFormattedPath
    rw [hfmt, formatPath_p, hok]
  cases home with
  | none =>
    exact ⟨dirOnlyPath statIsDir (goClean (getSelectedPath m)), hred,
      Or.inr ⟨rfl, fun homeDir r heq _ => by cases heq⟩⟩
  | some homeDir =>
    have hred2 : getFormattedPath getwd statIsDir (some homeDir) m =
        (match goRel homeDir (dirOnlyPath statIsDir (goClean (getSelectedPath m))) with
         | some relPath =>
           if ¬ isAbsPath relPath ∧ relPath.data ≠ [] ∧ relPath.data.head? ≠ some '.' then
             .ok (filepathJoin "$HOME" relPath)
           else .ok (dirOnlyPath statIsDir (goClean (getSelectedPath m)))
         | Option.none => .ok (dirOnlyPath statIsDir (goClean (getSelectedPath m)))) := hred
    cases hrel : goRel homeDir (dirOnlyPath statIsDir (goClean (getSelectedPath m))) with
    | none =>
      rw [hrel] at hred2
      exact ⟨dirOnlyPath statIsDir (goClean (getSelectedPath m)), hred2,
        Or.inr ⟨rfl, fun homeDir2 r heq hr => by
          injection heq with heq2
          subst heq2
          rw [hrel] at hr
          cases hr⟩⟩
    | some r =>
      have hred3 : getFormattedPath getwd statIsDir (some homeDir) m =
          (if ¬ isAbsPath r ∧ r.data ≠ [] ∧ r.data.head? ≠ some '.' then
             Except.ok (α := String) (filepathJoin "$HOME" r)
           else .ok (dirOnlyPath statIsDir (goClean (getSelectedPath m)))) := by
        rw [hrel] at hred2
        exact hred2
      by_cases hcond : ¬ isAbsPath r ∧ r.data ≠ [] ∧ r.data.head? ≠ some '.'
      · rw [if_pos hcond] at hred3
        exact ⟨filepathJoin "$HOME" r, hred3,
          Or.inl ⟨homeDir, r, rfl, hrel,
            Bool.eq_false_iff.mpr hcond.1, hcond.2.1, hcond.2.2, rfl⟩⟩
      · rw [if_neg hcond] at hred3
        refine ⟨dirOnlyPath statIsDir (goClean (getSelectedPath m)), hred3,
          Or.inr ⟨rfl, fun homeDir2 r2 heq hr2 => ?_⟩⟩
        injection heq with heq2
        subst heq2
        rw [hrel] at hr2
        injection hr2 with hr3
        subst hr3
        intro hcontra
        exact hcond ⟨by simp [hcontra.1], hcontra.2.1, hcontra.2.2⟩

/-- Witness for the amended C3: a directory under home gets the placeholder
form; the spec's format scenario ends at `$HOME/projects/app`. -/
theorem C3_home_format_witness :
    ∃ out, getFormattedPath (some "/home/alice/projects") (fun q => some (q ≠
        "/home/alice/projects/app/README.md"))
      (some "/home/alice")
      ⟨"/home/alice/projects", "/home/alice/projects/app/README.md", ⟨[], 0, Option.none⟩,
        Option.none, true, "p"⟩ = .ok out ∧
      ((∃ homeDir r, (some "/home/alice" : Option String) = some homeDir ∧
          goRel homeDir (dirOnlyPath (fun q => some (q ≠ "/home/alice/projects/app/README.md"))
            (goClean (getSelectedPath ⟨"/home/alice/projects",
              "/home/alice/projects/app/README.md", ⟨[], 0, Option.none⟩,
              Option.none, true, "p"⟩))) = some r ∧
          isAbsPath r = false ∧ r.data ≠ [] ∧ r.data.head? ≠ some '.' ∧
          out = filepathJoin "$HOME" r) ∨
       (out = dirOnlyPath (fun q => some (q ≠ "/home/alice/projects/app/README.md"))
          (goClean (getSelectedPath ⟨"/home/alice/projects",
            "/home/alice/projects/app/README.md", ⟨[], 0, Option.none⟩,
            Option.none, true, "p"⟩)) ∧
        ∀ homeDir r, (some "/home/alice" : Option String) = some homeDir →
          goRel homeDir (dirOnlyPath (fun q => some (q ≠ "/home/alice/projects/app/README.md"))
            (goClean (getSelectedPath ⟨"/home/alice/projects",
              "/home/alice/projects/app/README.md", ⟨[], 0, Option.none⟩,
              Option.none, true, "p"⟩))) = some r →
          ¬(isAbsPath r = false ∧ r.data ≠ [] ∧ r.data.head? ≠ some '.'))) :=
  C3_home_format (some "/home/alice/projects")
    (fun q => some (q ≠ "/home/alice/projects/app/README.md"))
    (some "/home/alice")
    ⟨"/home/alice/projects", "/home/alice/projects/app/README.md", ⟨[], 0, Option.none⟩,
      Option.none, true, "p"⟩ rfl (by decide)

/-- C3 (counterexample to the claim as stated): for the selected directory
`/home/alice/.config` with home `/home/alice`, the relative form `.config`
is a non-parent relative path (its first element is not `..`), yet the code
outputs the directory-only absolute path, not the home-placeholder form the
claim requires, because the source checks the first byte against `'.'`
rather than for an upward walk. -/
theorem C3_counterexample_hidden_dir :
    goRel "/home/alice" "/home/alice/.config" = some ".config" ∧
    isAbsPath ".config" = false ∧
    (splitSlash (".config" : String).data).head? ≠ some ['.', '.'] ∧
    getFormattedPath (some "/") (fun _ => some true) (some "/home/alice")
        ⟨"/home/alice", "/home/alice/.config", ⟨[], 0, Option.none⟩,
          Option.none, true, "p"⟩ = .ok "/home/alice/.config" ∧
    filepathJoin "$HOME" ".config" = "$HOME/.config" ∧
    ("/home/alice/.config" : String) ≠ "$HOME/.config" := by
  refine ⟨by decide, by decide, by decide, ?_, by decide, by decide⟩
  rfl
